import Mathlib

/-!
Verification of the unified local-extrema detection engine
(`unified_extrema_detector.py`) and the surrounding filtering, pairing and
manual-snap logic (`local_extrema_gui.py`).

Numeric values are modelled as exact rationals.  The detector's noise level
(`np.std` of the first differences, an irrational square root in general) is
passed to the pipeline as an explicit parameter `noise_level`; a run of the
real program corresponds to instantiating it with the nonnegative square root
of `diffVariance data`, which is expressed in theorems by the side condition
`0 ≤ noise_level ∧ noise_level ^ 2 = diffVariance data`.
-/

namespace UED

/-- Kind of an extremum, modelling the `'max'` / `'min'` string tags. -/
inductive Kind where
  | kmax
  | kmin
deriving DecidableEq, Repr

/-- An extremum as returned by the detector: an `(index, value)` pair. -/
abbrev Extremum := ℕ × ℚ

/-- A kind-tagged extremum, modelling the `('max', idx, val)` tuples used in
the alternating-family strategies. -/
structure Tagged where
  kind : Kind
  idx : ℕ
  val : ℚ
deriving DecidableEq, Repr

/-- Reads `data[i]`.  Every access performed by the embedded code is in range, so the
default value is never consulted. -/
def atD (data : List ℚ) (i : ℕ) : ℚ := data.getD i 0

/-- Models Python's `min` on a (nonempty) list. -/
def listMin : List ℚ → ℚ
  | [] => 0
  | x :: xs => xs.foldl min x

/-- Models Python's `max` on a (nonempty) list. -/
def listMax : List ℚ → ℚ
  | [] => 0
  | x :: xs => xs.foldl max x

/-- Stable insertion with respect to a boolean "may go before" test. -/
def insertLe {α : Type} (le : α → α → Bool) (x : α) : List α → List α
  | [] => [x]
  | y :: ys => if le x y then x :: y :: ys else y :: insertLe le x ys

/-- Stable insertion sort: an element goes in front of the sorted suffix
exactly when `le` holds against its head, so ties keep the original order,
matching Python's stable `sort` / `sorted`. -/
def isort {α : Type} (le : α → α → Bool) : List α → List α
  | [] => []
  | x :: xs => insertLe le x (isort le xs)

/-- Stable sort by index, modelling `all_extrema.sort(key=lambda x: x[1])`. -/
def sortByIdx : List Tagged → List Tagged :=
  isort fun a b => decide (a.idx ≤ b.idx)

/-- Stable sort by index for `(index, value)` pairs, modelling
`sorted(l, key=lambda x: x[0])`. -/
def sortByIdxE : List Extremum → List Extremum :=
  isort fun a b => decide (a.1 ≤ b.1)

/-- Stable descending sort by `|value|`, modelling
`sorted(l, key=lambda x: abs(x[1]), reverse=True)`. -/
def sortByAbsDesc : List Extremum → List Extremum :=
  isort fun a b => decide (|b.2| ≤ |a.2|)

/-- Tag every `(index, value)` pair with a kind. -/
def tagList (k : Kind) (l : List Extremum) : List Tagged :=
  l.map fun p => ⟨k, p.1, p.2⟩

/-- Drop the kind tag. -/
def untag (e : Tagged) : Extremum := (e.idx, e.val)

/-- The `[(idx, val) for typ, idx, val in extrema if typ == k]` projection. -/
def projectKind (k : Kind) (l : List Tagged) : List Extremum :=
  (l.filter fun e => e.kind = k).map untag

/-- One step of the "alternating pattern" walk shared by the alternating,
enhanced and strict strategies: `first` decides whether a candidate may open
the list, `accept` whether it may follow the last accepted extremum.  The
accumulator holds the accepted extrema in reverse order (`acc.head` is
Python's `final_extrema[-1]`). -/
def walkStep (first : Tagged → Bool) (accept : Tagged → Tagged → Bool)
    (acc : List Tagged) (x : Tagged) : List Tagged :=
  match acc with
  | [] => if first x then [x] else []
  | last :: rest => if accept last x then x :: last :: rest else last :: rest

/-- The full walk over the index-sorted candidate list. -/
def walk (first : Tagged → Bool) (accept : Tagged → Tagged → Bool)
    (l : List Tagged) : List Tagged :=
  (l.foldl (walkStep first accept) []).reverse

/-- Models `_detect_simple`. -/
def detect_simple (data : List ℚ) (threshold : ℚ) :
    List Extremum × List Extremum :=
  if data.length < 3 then ([], []) else
    let v := atD data
    let maxCond := fun (i : ℕ) =>
      v (i-1) + threshold < v i ∧ v (i+1) - threshold ≤ v i
    let minCond := fun (i : ℕ) =>
      v i < v (i-1) - threshold ∧ v i ≤ v (i+1) + threshold
    let idxs := List.range' 1 (data.length - 2)
    (idxs.filterMap fun i =>
        if ¬ maxCond i ∧ minCond i then some (i, v i) else none,
     idxs.filterMap fun i =>
        if maxCond i then some (i, v i) else none)

/-- Models `_detect_window` (its unused `threshold` parameter is dropped). -/
def detect_window (data : List ℚ) (window_size : ℕ) :
    List Extremum × List Extremum :=
  if data.length < window_size + 2 then ([], []) else
    let v := atD data
    let windowIdxs := fun (i : ℕ) =>
      List.range' (i - window_size) window_size ++ List.range' (i+1) window_size
    let isLocalMax := fun (i : ℕ) => ∀ j ∈ windowIdxs i, v j ≤ v i
    let isLocalMin := fun (i : ℕ) => ∀ j ∈ windowIdxs i, v i ≤ v j
    let idxs := List.range' window_size (data.length - 2 * window_size)
    (idxs.filterMap fun i =>
        if ¬ isLocalMax i ∧ isLocalMin i then some (i, v i) else none,
     idxs.filterMap fun i =>
        if isLocalMax i then some (i, v i) else none)

/-- Models `_detect_slope` (its unused `window_size` parameter is dropped). -/
def detect_slope (data : List ℚ) (threshold : ℚ) :
    List Extremum × List Extremum :=
  if data.length < 4 then ([], []) else
    let v := atD data
    let slope := fun (i : ℕ) => v (i+1) - v i
    let maxCond := fun (i : ℕ) =>
      ¬ |slope i| < threshold ∧ threshold < slope (i-1) ∧ slope i < -threshold
    let minCond := fun (i : ℕ) =>
      ¬ |slope i| < threshold ∧ slope (i-1) < -threshold ∧ threshold < slope i
    let idxs := List.range' 1 (data.length - 3)
    (idxs.filterMap fun i =>
        if ¬ maxCond i ∧ minCond i then some (i, v i) else none,
     idxs.filterMap fun i =>
        if maxCond i then some (i, v i) else none)

/-- Acceptance rule of `_detect_alternating`'s walk. -/
def alternatingAccept (threshold : ℚ) (last x : Tagged) : Bool :=
  decide (x.kind ≠ last.kind ∧
    ((x.kind = Kind.kmax ∧ last.val + threshold < x.val) ∨
     (x.kind = Kind.kmin ∧ x.val < last.val - threshold)))

/-- The 5-point maximum-candidate test of `_detect_alternating`. -/
def fivePointMaxCand (data : List ℚ) (threshold : ℚ) (i : ℕ) : Prop :=
  atD data (i-1) + threshold < atD data i ∧ atD data (i+1) + threshold < atD data i ∧
  atD data (i-2) + threshold < atD data i ∧ atD data (i+2) + threshold < atD data i

/-- The 5-point minimum-candidate test of `_detect_alternating`. -/
def fivePointMinCand (data : List ℚ) (threshold : ℚ) (i : ℕ) : Prop :=
  atD data i < atD data (i-1) - threshold ∧ atD data i < atD data (i+1) - threshold ∧
  atD data i < atD data (i-2) - threshold ∧ atD data i < atD data (i+2) - threshold

instance (data : List ℚ) (t : ℚ) (i : ℕ) : Decidable (fivePointMaxCand data t i) := by
  unfold fivePointMaxCand; infer_instance

instance (data : List ℚ) (t : ℚ) (i : ℕ) : Decidable (fivePointMinCand data t i) := by
  unfold fivePointMinCand; infer_instance

/-- The merged candidate list of `_detect_alternating` (maxima first, then
minima, as the Python code extends `all_extrema`). -/
def alternatingCands (data : List ℚ) (threshold : ℚ) : List Tagged :=
  let v := atD data
  let idxs := List.range' 2 (data.length - 4)
  tagList Kind.kmax (idxs.filterMap fun i =>
    if fivePointMaxCand data threshold i then some (i, v i) else none) ++
  tagList Kind.kmin (idxs.filterMap fun i =>
    if ¬ fivePointMaxCand data threshold i ∧ fivePointMinCand data threshold i then
      some (i, v i) else none)

/-- Models `_detect_alternating`. -/
def detect_alternating (data : List ℚ) (threshold : ℚ) :
    List Extremum × List Extremum :=
  if data.length < 5 then ([], []) else
    let extrema := walk (fun _ => true) (alternatingAccept threshold)
      (sortByIdx (alternatingCands data threshold))
    (projectKind Kind.kmin extrema, projectKind Kind.kmax extrema)

/-- Acceptance rule of `_detect_enhanced`'s walk. -/
def enhancedAccept (threshold min_threshold : ℚ) (last x : Tagged) : Bool :=
  decide (x.kind ≠ last.kind ∧
    (2 ≤ (x.idx : ℤ) - (last.idx : ℤ) ∧ threshold ≤ |x.val - last.val|) ∧
    ((x.kind = Kind.kmin ∧ x.val ≤ min_threshold ∧ x.val < last.val - threshold * 2) ∨
     (x.kind = Kind.kmax ∧ last.val + threshold * 2 < x.val)))

/-- The 7-point maximum-candidate test shared by `_detect_enhanced` and
`_detect_strict`. -/
def sevenPointMaxCand (data : List ℚ) (i : ℕ) : Prop :=
  ∀ j ∈ List.range' (i - 3) 7, j ≠ i → atD data j < atD data i

/-- The 7-point minimum-candidate test (without the ceiling condition). -/
def sevenPointMinCand (data : List ℚ) (i : ℕ) : Prop :=
  ∀ j ∈ List.range' (i - 3) 7, j ≠ i → atD data i < atD data j

instance (data : List ℚ) (i : ℕ) : Decidable (sevenPointMaxCand data i) := by
  unfold sevenPointMaxCand; infer_instance

instance (data : List ℚ) (i : ℕ) : Decidable (sevenPointMinCand data i) := by
  unfold sevenPointMinCand; infer_instance

/-- The merged candidate list shared by `_detect_enhanced` and
`_detect_strict` (maxima first, then minima); `min_threshold` is the ceiling
applied to minimum candidates. -/
def sevenPointCands (data : List ℚ) (min_threshold : ℚ) : List Tagged :=
  let v := atD data
  let idxs := List.range' 3 (data.length - 6)
  tagList Kind.kmax (idxs.filterMap fun i =>
    if sevenPointMaxCand data i then some (i, v i) else none) ++
  tagList Kind.kmin (idxs.filterMap fun i =>
    if v i ≤ min_threshold ∧ sevenPointMinCand data i then some (i, v i) else none)

/-- The minimum-candidate ceiling of `_detect_enhanced`:
`min(0.4, min_val + data_range * 0.3)`. -/
def enhancedMinThreshold (data : List ℚ) : ℚ :=
  min (2/5 : ℚ) (listMin data + (listMax data - listMin data) * (3/10))

/-- Models `_detect_enhanced`. -/
def detect_enhanced (data : List ℚ) (threshold : ℚ) :
    List Extremum × List Extremum :=
  if data.length < 7 then ([], []) else
    let min_threshold := enhancedMinThreshold data
    let final_extrema := walk (fun _ => true) (enhancedAccept threshold min_threshold)
      (sortByIdx (sevenPointCands data min_threshold))
    (projectKind Kind.kmin final_extrema, projectKind Kind.kmax final_extrema)

/-- Acceptance rule of `_detect_strict`'s walk. -/
def strictAccept (threshold min_threshold : ℚ) (last x : Tagged) : Bool :=
  decide (x.kind ≠ last.kind ∧
    (3 ≤ (x.idx : ℤ) - (last.idx : ℤ) ∧ threshold ≤ |x.val - last.val|) ∧
    ((x.kind = Kind.kmin ∧ x.val ≤ min_threshold ∧ x.val < last.val - threshold * 3) ∨
     (x.kind = Kind.kmax ∧ last.val + threshold * 3 < x.val)))

/-- First-element rule of `_detect_strict`'s walk. -/
def strictFirst (min_threshold : ℚ) (x : Tagged) : Bool :=
  decide (x.kind = Kind.kmax ∨ (x.kind = Kind.kmin ∧ x.val ≤ min_threshold))

/-- Models `_detect_strict`.  The minimum-candidate ceiling is the fixed constant
`0.4`. -/
def detect_strict (data : List ℚ) (threshold : ℚ) :
    List Extremum × List Extremum :=
  if data.length < 7 then ([], []) else
    let min_threshold := (2/5 : ℚ)
    let final_extrema :=
      walk (strictFirst min_threshold) (strictAccept threshold min_threshold)
        (sortByIdx (sevenPointCands data min_threshold))
    (projectKind Kind.kmin final_extrema, projectKind Kind.kmax final_extrema)

/-- Insertion maintaining a key-sorted association list, overwriting the value
on an equal key.  Folding it over a list replicates
`sorted({idx: val for idx, val in l}.items())` (last write wins). -/
def dedupInsert (x : Extremum) : List Extremum → List Extremum
  | [] => [x]
  | y :: ys =>
    if x.1 < y.1 then x :: y :: ys
    else if x.1 = y.1 then x :: ys
    else y :: dedupInsert x ys

/-- The dedup-and-index-sort step of `_post_process_results`. -/
def dedupSort (l : List Extremum) : List Extremum :=
  l.foldl (fun acc x => dedupInsert x acc) []

/-- Tail of `_remove_close_extrema`'s loop: `lastIdx` is the index of the last
kept extremum. -/
def removeCloseGo (min_distance : ℕ) : ℕ → List Extremum → List Extremum
  | _, [] => []
  | lastIdx, y :: ys =>
    if (min_distance : ℤ) ≤ (y.1 : ℤ) - (lastIdx : ℤ) then
      y :: removeCloseGo min_distance y.1 ys
    else
      removeCloseGo min_distance lastIdx ys

/-- Models `_remove_close_extrema`. -/
def remove_close_extrema (l : List Extremum) (min_distance : ℕ) : List Extremum :=
  match l with
  | [] => []
  | x :: xs => x :: removeCloseGo min_distance x.1 xs

/-- The per-extremum test of `_filter_by_quality` (returns `some e` when the
extremum is kept). -/
def qualityKeep (data : List ℚ) (noise_level : ℚ) (is_minimum : Bool)
    (e : Extremum) : Option Extremum :=
  let window_size := min 3 (data.length / 10)
  let start_idx := e.1 - window_size
  let end_idx := min data.length (e.1 + window_size + 1)
  let local_data := (data.drop start_idx).take (end_idx - start_idx)
  if local_data = [] then none
  else if is_minimum then
    (if e.2 ≤ listMin local_data + noise_level * 2 then some e else none)
  else
    (if listMax local_data - noise_level * 2 ≤ e.2 then some e else none)

/-- Models `_filter_by_quality`. -/
def filter_by_quality (l : List Extremum) (data : List ℚ) (noise_level : ℚ)
    (is_minimum : Bool) : List Extremum :=
  l.filterMap (qualityKeep data noise_level is_minimum)

/-- Models `_post_process_results` (the ResultRefiner).  `noise_level` is the value
`characteristics['noise_level']` of the run. -/
def post_process_results (minima maxima : List Extremum) (data : List ℚ)
    (noise_level : ℚ) : List Extremum × List Extremum :=
  let m1 := dedupSort minima
  let x1 := dedupSort maxima
  let min_distance := max 2 (data.length / 100)
  let m2 := remove_close_extrema m1 min_distance
  let x2 := remove_close_extrema x1 min_distance
  if 0 < noise_level then
    (filter_by_quality m2 data noise_level true,
     filter_by_quality x2 data noise_level false)
  else (m2, x2)

/-- Models `np.diff(data)`. -/
def diffList (data : List ℚ) : List ℚ :=
  (data.zip data.tail).map fun p => p.2 - p.1

/-- Population variance of the first differences: the square of the
`noise_level = np.std(np.diff(data))` computed by the analyzer. -/
def diffVariance (data : List ℚ) : ℚ :=
  let ds := diffList data
  if ds.length = 0 then 0 else
    let m := ds.sum / (ds.length : ℚ)
    ((ds.map fun d => (d - m) ^ 2).sum) / (ds.length : ℚ)

/-- Models `np.sign`. -/
def signQ (d : ℚ) : ℤ := if 0 < d then 1 else if d < 0 then -1 else 0

/-- Models `_is_oscillatory_pattern`. -/
def is_oscillatory (data : List ℚ) : Bool :=
  if data.length < 10 then false else
    let ds := diffList data
    let signs := ds.map signQ
    let sign_changes := ((signs.zip signs.tail).filter fun p => p.1 ≠ p.2).length
    let change_rate : ℚ :=
      if 0 < ds.length then (sign_changes : ℚ) / (ds.length : ℚ) else 0
    decide ((3/10 : ℚ) < change_rate)

/-- Models `_has_plateaus`. -/
def has_plateaus (data : List ℚ) (noise_level : ℚ) : Bool :=
  if data.length < 5 then false else
    let plateau_threshold := noise_level * (1/2)
    let run := (diffList data).foldl
      (fun (p : ℕ × ℕ) d =>
        if |d| < plateau_threshold then (p.1 + 1, max p.2 (p.1 + 1)) else (0, p.2))
      (0, 0)
    decide (5 ≤ run.2)

/-- The extrema density computed by `analyze_data_characteristics`. -/
def extremaDensity (data : List ℚ) (noise_level : ℚ) : ℚ :=
  let se := detect_simple data (noise_level * (1/10))
  if 0 < data.length then
    ((se.1.length + se.2.length : ℕ) : ℚ) / (data.length : ℚ)
  else 0

/-- Models `select_optimal_method`.  `noise_level` and `std_val` are the two
square-root-valued statistics of the run, passed in explicitly. -/
def select_optimal_method (data : List ℚ) (noise_level std_val : ℚ) : String :=
  let range_val := listMax data - listMin data
  let variability : ℚ := if 0 < range_val then std_val / range_val else 0
  if data.length < 10 then "simple"
  else if is_oscillatory data ∧ (1/10 : ℚ) < extremaDensity data noise_level then
    "alternating"
  else if has_plateaus data noise_level then "window"
  else if std_val * (1/10) < noise_level then "enhanced"
  else if (1/5 : ℚ) < extremaDensity data noise_level then "strict"
  else if variability < (1/10 : ℚ) then "slope"
  else "enhanced"

/-- The strategy dispatch of `detect_extrema` (`self.detection_methods`
lookup, with the unrecognized-method fallback to the enhanced strategy). -/
def runMethod (data : List ℚ) (method : String) (threshold : ℚ)
    (window_size : ℕ) : List Extremum × List Extremum :=
  if method = "simple" then detect_simple data threshold
  else if method = "window" then detect_window data window_size
  else if method = "slope" then detect_slope data threshold
  else if method = "alternating" then detect_alternating data threshold
  else if method = "enhanced" then detect_enhanced data threshold
  else if method = "strict" then detect_strict data threshold
  else detect_enhanced data threshold

/-- Models `detect_extrema` with an explicitly given method string (the
`method is not None` path). -/
def detect_extrema (data : List ℚ) (method : String) (threshold : ℚ)
    (window_size : ℕ) (noise_level : ℚ) : List Extremum × List Extremum :=
  if data.length < 3 then ([], []) else
    let raw := runMethod data method threshold window_size
    post_process_results raw.1 raw.2 data noise_level

/-- Models `detect_extrema` with `method=None`: the strategy is chosen by
`select_optimal_method`. -/
def detect_extrema_auto (data : List ℚ) (threshold : ℚ) (window_size : ℕ)
    (noise_level std_val : ℚ) : List Extremum × List Extremum :=
  if data.length < 3 then ([], []) else
    detect_extrema data (select_optimal_method data noise_level std_val)
      threshold window_size noise_level

/-- Models `apply_threshold_filter`. -/
def apply_threshold_filter (minima maxima : List Extremum)
    (max_threshold min_threshold : ℚ) : List Extremum × List Extremum :=
  let filtered_maxima :=
    if 0 < max_threshold then maxima.filter fun p => max_threshold ≤ p.2
    else maxima
  let filtered_minima :=
    if min_threshold < 999 then minima.filter fun p => p.2 ≤ min_threshold
    else minima
  (filtered_minima, filtered_maxima)

/-- Models `filter_results_by_count`. -/
def filter_results_by_count (minima maxima : List Extremum)
    (max_count_limit min_count_limit : ℕ) (method : String) :
    List Extremum × List Extremum :=
  if method = "alternating" ∨ method = "enhanced" ∨ method = "strict" then
    (minima, maxima)
  else
    let maxima' :=
      if 0 < max_count_limit ∧ max_count_limit < maxima.length then
        (sortByAbsDesc maxima).take max_count_limit
      else maxima
    let minima' :=
      if 0 < min_count_limit ∧ min_count_limit < minima.length then
        (sortByAbsDesc minima).take min_count_limit
      else minima
    (minima', maxima')

/-- The per-selection maximum search of `find_extrema_around_selections`. -/
def find_local_max_around (data : List ℚ) (selected_idx : ℕ) : ℕ × ℚ :=
  let start_idx := selected_idx - 10
  let end_idx := min data.length (selected_idx + 10 + 1)
  (List.range' start_idx (end_idx - start_idx)).foldl
    (fun best i => if best.2 < atD data i then (i, atD data i) else best)
    (selected_idx, atD data selected_idx)

/-- The per-selection minimum search of `find_extrema_around_selections`. -/
def find_local_min_around (data : List ℚ) (selected_idx : ℕ) : ℕ × ℚ :=
  let start_idx := selected_idx - 10
  let end_idx := min data.length (selected_idx + 10 + 1)
  (List.range' start_idx (end_idx - start_idx)).foldl
    (fun best i => if atD data i < best.2 then (i, atD data i) else best)
    (selected_idx, atD data selected_idx)

/-- A maximum/minimum difference pair as produced by `calculate_differences`. -/
structure DiffPair where
  pair_number : ℕ
  max_index : ℕ
  max_value : ℚ
  min_index : ℕ
  min_value : ℚ
  difference : ℚ
deriving DecidableEq, Repr

/-- Models `calculate_differences`. -/
def calculate_differences (minima maxima : List Extremum) : List DiffPair :=
  let maxima_sorted := sortByIdxE maxima
  let minima_sorted := sortByIdxE minima
  let min_len := min maxima_sorted.length minima_sorted.length
  (List.range min_len).map fun i =>
    let mx := maxima_sorted.getD i (0, 0)
    let mn := minima_sorted.getD i (0, 0)
    ⟨i + 1, mx.1, mx.2, mn.1, mn.2, mx.2 - mn.2⟩

/-- The concrete 33-point sequence used to exercise the refiner: its first
differences are thirty `±1` steps and one `±7` pair, so their mean is `0` and
their population variance is `128/32 = 4`, making the run's noise level
exactly `2`. -/
def exSeq : List ℚ :=
  [0, 1, 2, 1, 0, -1, 0, 1, 2, 3, 2, 1, 0, 1, 2, -5, 2, 3, 2, 1, 0, 1, 2, 3,
   2, 1, 0, 1, 2, 1, 0, -1, 0]

section SortLemmas

variable {α : Type}

theorem insertLe_perm (le : α → α → Bool) (x : α) (l : List α) :
    List.Perm (insertLe le x l) (x :: l) := by
  induction l with
  | nil => simp [insertLe]
  | cons y ys ih =>
    simp only [insertLe]
    split
    · exact List.Perm.refl _
    · exact (ih.cons y).trans (List.Perm.swap x y ys)

theorem isort_perm (le : α → α → Bool) (l : List α) :
    List.Perm (isort le l) l := by
  induction l with
  | nil => simp [isort]
  | cons x xs ih => exact (insertLe_perm le x (isort le xs)).trans (ih.cons x)

theorem insertLe_sorted {le : α → α → Bool}
    (htot : ∀ a b, le a b = false → le b a = true)
    (htrans : ∀ a b c, le a b = true → le b c = true → le a c = true)
    (x : α) {l : List α} (h : l.Sorted fun a b => le a b = true) :
    (insertLe le x l).Sorted fun a b => le a b = true := by
  induction l with
  | nil => simp [insertLe]
  | cons y ys ih =>
    rcases List.sorted_cons.mp h with ⟨hy, hys⟩
    simp only [insertLe]
    split
    · rename_i hxy
      refine List.sorted_cons.mpr ⟨?_, h⟩
      intro b hb
      rcases List.mem_cons.mp hb with rfl | hb
      · exact hxy
      · exact htrans x y b hxy (hy b hb)
    · rename_i hxy
      refine List.sorted_cons.mpr ⟨?_, ih hys⟩
      intro b hb
      have hb' := (insertLe_perm le x ys).mem_iff.mp hb
      rcases List.mem_cons.mp hb' with hbe | hb'
      · subst hbe
        exact htot b y (by simpa using hxy)
      · exact hy b hb'

theorem isort_sorted (le : α → α → Bool)
    (htot : ∀ a b, le a b = false → le b a = true)
    (htrans : ∀ a b c, le a b = true → le b c = true → le a c = true)
    (l : List α) :
    (isort le l).Sorted fun a b => le a b = true := by
  induction l with
  | nil => simp [isort]
  | cons x xs ih => exact insertLe_sorted htot htrans x ih

end SortLemmas

section WalkLemmas

theorem walkStep_reverse_sublist (first : Tagged → Bool)
    (accept : Tagged → Tagged → Bool) (acc : List Tagged) (x : Tagged) :
    List.Sublist (walkStep first accept acc x).reverse (acc.reverse ++ [x]) := by
  match acc with
  | [] =>
    simp only [walkStep]
    split
    · simp
    · simp
  | last :: rest =>
    simp only [walkStep]
    split
    · simp
    · exact List.sublist_append_left _ _

theorem walk_foldl_sublist (first : Tagged → Bool)
    (accept : Tagged → Tagged → Bool) :
    ∀ (l acc : List Tagged),
      List.Sublist (l.foldl (walkStep first accept) acc).reverse
        (acc.reverse ++ l) := by
  intro l
  induction l with
  | nil => intro acc; simp
  | cons x xs ih =>
    intro acc
    have h1 := ih (walkStep first accept acc x)
    have h2 := (walkStep_reverse_sublist first accept acc x).append_right xs
    have h3 : (acc.reverse ++ [x]) ++ xs = acc.reverse ++ x :: xs := by simp
    rw [h3] at h2
    exact List.Sublist.trans h1 h2

theorem walk_sublist (first : Tagged → Bool) (accept : Tagged → Tagged → Bool)
    (l : List Tagged) : List.Sublist (walk first accept l) l := by
  have h := walk_foldl_sublist first accept l []
  simp only [List.reverse_nil, List.nil_append] at h
  exact h

theorem walk_foldl_chain (first : Tagged → Bool)
    (accept : Tagged → Tagged → Bool)
    (hacc : ∀ la x, accept la x = true → x.kind ≠ la.kind) :
    ∀ (l acc : List Tagged),
      acc.Chain' (fun p q => p.kind ≠ q.kind) →
      (l.foldl (walkStep first accept) acc).Chain' fun p q => p.kind ≠ q.kind := by
  intro l
  induction l with
  | nil => intro acc h; exact h
  | cons x xs ih =>
    intro acc h
    refine ih _ ?_
    match acc with
    | [] =>
      simp only [walkStep]
      split
      · simp
      · simp
    | last :: rest =>
      simp only [walkStep]
      split
      · exact List.chain'_cons.mpr ⟨hacc last x (by assumption), h⟩
      · exact h

theorem walk_chain (first : Tagged → Bool) (accept : Tagged → Tagged → Bool)
    (hacc : ∀ la x, accept la x = true → x.kind ≠ la.kind) (l : List Tagged) :
    (walk first accept l).Chain' fun p q => p.kind ≠ q.kind := by
  unfold walk
  rw [List.chain'_reverse]
  exact (walk_foldl_chain first accept hacc l [] (by simp)).imp
    fun a b hab => by exact fun h => hab h.symm

end WalkLemmas

section CandidateLemmas

theorem mem_filterMapIf {c : ℕ → Prop} [DecidablePred c] {v : ℕ → ℚ}
    {l : List ℕ} {p : Extremum} :
    (p ∈ l.filterMap fun i => if c i then some (i, v i) else none) ↔
      p.1 ∈ l ∧ c p.1 ∧ p.2 = v p.1 := by
  rw [List.mem_filterMap]
  constructor
  · rintro ⟨i, hi, hp⟩
    split at hp
    · rename_i hc
      injection hp with h
      subst h
      exact ⟨hi, hc, rfl⟩
    · exact absurd hp (by simp)
  · rintro ⟨h1, h2, h3⟩
    refine ⟨p.1, h1, ?_⟩
    rw [if_pos h2, ← h3]

theorem pairwise_fst_filterMapIf {c : ℕ → Prop} [DecidablePred c] {v : ℕ → ℚ}
    {l : List ℕ} (hl : l.Pairwise (· ≠ ·)) :
    (l.filterMap fun i => if c i then some (i, v i) else none).Pairwise
      fun p q => p.1 ≠ q.1 := by
  induction l with
  | nil => simp
  | cons i tl ih =>
    rcases List.pairwise_cons.mp hl with ⟨hi, htl⟩
    rw [List.filterMap_cons]
    split
    · exact ih htl
    · rename_i b heq
      have hb : b.1 = i := by
        split at heq
        · injection heq with h
          rw [← h]
        · exact absurd heq (by simp)
      refine List.pairwise_cons.mpr ⟨?_, ih htl⟩
      intro q hq
      have hq1 : q.1 ∈ tl := (mem_filterMapIf.mp hq).1
      rw [hb]
      exact hi q.1 hq1

theorem tagList_projectKind (k : Kind) (l : List Tagged) :
    tagList k (projectKind k l) = l.filter fun e => decide (e.kind = k) := by
  unfold projectKind tagList
  rw [List.map_map]
  have h : ∀ e ∈ l.filter (fun e => decide (e.kind = k)),
      ((fun p : Extremum => (⟨k, p.1, p.2⟩ : Tagged)) ∘ untag) e = e := by
    intro e he
    have hk : e.kind = k := of_decide_eq_true (List.mem_filter.mp he).2
    cases e
    cases hk
    rfl
  exact (List.map_congr_left h).trans (List.map_id _)

theorem proj_append_perm (l : List Tagged) :
    List.Perm
      (tagList Kind.kmin (projectKind Kind.kmin l) ++
       tagList Kind.kmax (projectKind Kind.kmax l)) l := by
  rw [tagList_projectKind, tagList_projectKind]
  have h : l.filter (fun e => decide (e.kind = Kind.kmax)) =
      l.filter fun e => !(decide (e.kind = Kind.kmin)) := by
    apply List.filter_congr
    intro e _
    rcases e with ⟨k, i, w⟩
    cases k <;> rfl
  rw [h]
  exact List.filter_append_perm _ l

theorem sorted_lt_of_le_ne {l : List Tagged}
    (hs : l.Sorted fun a b => a.idx ≤ b.idx)
    (hp : l.Pairwise fun a b => a.idx ≠ b.idx) :
    l.Sorted fun a b => a.idx < b.idx := by
  have h := List.Pairwise.and hs hp
  exact h.imp fun hab => lt_of_le_of_ne hab.1 hab.2

theorem sortByIdx_sorted_le (l : List Tagged) :
    (sortByIdx l).Sorted fun a b => a.idx ≤ b.idx := by
  have h := isort_sorted (fun a b : Tagged => decide (a.idx ≤ b.idx))
    (fun a b hab => by simp at hab ⊢; omega)
    (fun a b c hab hbc => by simp at hab hbc ⊢; omega) l
  exact h.imp fun hab => of_decide_eq_true hab

theorem sortByIdx_eq_of_perm_sorted {X W : List Tagged}
    (hperm : List.Perm X W) (hW : W.Sorted fun a b => a.idx < b.idx) :
    sortByIdx X = W := by
  have hperm' : List.Perm (sortByIdx X) W :=
    (isort_perm _ X).trans hperm
  have hle := sortByIdx_sorted_le X
  have hWne : W.Pairwise fun a b => a.idx ≠ b.idx :=
    hW.imp fun hab => Nat.ne_of_lt hab
  have hne : (sortByIdx X).Pairwise fun a b => a.idx ≠ b.idx :=
    (List.Perm.pairwise_iff (fun hab => hab.symm) hperm').mpr hWne
  have hlt := sorted_lt_of_le_ne hle hne
  haveI : IsAntisymm Tagged fun a b => a.idx < b.idx :=
    ⟨fun a b h1 h2 => absurd (h1.trans h2) (lt_irrefl _)⟩
  exact List.eq_of_perm_of_sorted hperm' hlt hW

theorem alternatingCands_pairwise (data : List ℚ) (t : ℚ) :
    (alternatingCands data t).Pairwise fun a b => a.idx ≠ b.idx := by
  unfold alternatingCands
  rw [List.pairwise_append]
  refine ⟨?_, ?_, ?_⟩
  · unfold tagList
    rw [List.pairwise_map]
    exact pairwise_fst_filterMapIf (List.nodup_range' _ _)
  · unfold tagList
    rw [List.pairwise_map]
    exact pairwise_fst_filterMapIf (List.nodup_range' _ _)
  · intro a ha b hb
    unfold tagList at ha hb
    rcases List.mem_map.mp ha with ⟨p, hp, rfl⟩
    rcases List.mem_map.mp hb with ⟨q, hq, rfl⟩
    have hp' := mem_filterMapIf.mp hp
    have hq' := mem_filterMapIf.mp hq
    intro hab
    simp only at hab
    exact absurd (hab ▸ hp'.2.1) hq'.2.1.1

theorem sevenPointCands_pairwise (data : List ℚ) (thr : ℚ) :
    (sevenPointCands data thr).Pairwise fun a b => a.idx ≠ b.idx := by
  unfold sevenPointCands
  rw [List.pairwise_append]
  refine ⟨?_, ?_, ?_⟩
  · unfold tagList
    rw [List.pairwise_map]
    exact pairwise_fst_filterMapIf (List.nodup_range' _ _)
  · unfold tagList
    rw [List.pairwise_map]
    exact pairwise_fst_filterMapIf (List.nodup_range' _ _)
  · intro a ha b hb
    unfold tagList at ha hb
    rcases List.mem_map.mp ha with ⟨p, hp, rfl⟩
    rcases List.mem_map.mp hb with ⟨q, hq, rfl⟩
    have hp' := mem_filterMapIf.mp hp
    have hq' := mem_filterMapIf.mp hq
    intro hab
    simp only at hab
    rcases List.mem_range'_1.mp hp'.1 with ⟨hp3, _⟩
    have hmem : p.1 + 1 ∈ List.range' (p.1 - 3) 7 :=
      List.mem_range'_1.mpr ⟨by omega, by omega⟩
    have h1 : atD data (p.1 + 1) < atD data p.1 :=
      hp'.2.1 (p.1 + 1) hmem (by omega)
    have hmem' : p.1 + 1 ∈ List.range' (q.1 - 3) 7 := by
      rw [← hab]
      exact hmem
    have h2 : atD data q.1 < atD data (p.1 + 1) :=
      hq'.2.1.2 (p.1 + 1) hmem' (by omega)
    rw [← hab] at h2
    exact absurd h2 (not_lt.mpr (le_of_lt h1))

theorem walk_merged_chain (first : Tagged → Bool)
    (accept : Tagged → Tagged → Bool) (cands : List Tagged)
    (hacc : ∀ la x, accept la x = true → x.kind ≠ la.kind)
    (hpw : cands.Pairwise fun a b => a.idx ≠ b.idx) :
    sortByIdx
        (tagList Kind.kmin (projectKind Kind.kmin (walk first accept (sortByIdx cands))) ++
         tagList Kind.kmax (projectKind Kind.kmax (walk first accept (sortByIdx cands)))) =
      walk first accept (sortByIdx cands) ∧
    (walk first accept (sortByIdx cands)).Chain' fun p q => p.kind ≠ q.kind := by
  have hWsub := walk_sublist first accept (sortByIdx cands)
  have hle := sortByIdx_sorted_le cands
  have hpw' : (sortByIdx cands).Pairwise fun a b => a.idx ≠ b.idx :=
    (List.Perm.pairwise_iff (fun hab => hab.symm) (isort_perm _ cands)).mpr hpw
  have hlt := sorted_lt_of_le_ne hle hpw'
  have hWlt : (walk first accept (sortByIdx cands)).Sorted fun a b => a.idx < b.idx :=
    List.Pairwise.sublist hWsub hlt
  exact ⟨sortByIdx_eq_of_perm_sorted (proj_append_perm _) hWlt,
    walk_chain first accept hacc _⟩

end CandidateLemmas

section AcceptLemmas

theorem alternatingAccept_ne (t : ℚ) (la x : Tagged)
    (h : alternatingAccept t la x = true) : x.kind ≠ la.kind :=
  (of_decide_eq_true h).1

theorem enhancedAccept_ne (t thr : ℚ) (la x : Tagged)
    (h : enhancedAccept t thr la x = true) : x.kind ≠ la.kind :=
  (of_decide_eq_true h).1

theorem strictAccept_ne (t thr : ℚ) (la x : Tagged)
    (h : strictAccept t thr la x = true) : x.kind ≠ la.kind :=
  (of_decide_eq_true h).1

end AcceptLemmas

/-- C1 (amended): for every sequence and every threshold, the index-sorted
concatenation of the minima and maxima returned by the alternating, enhanced
and strict *strategies themselves* (i.e. before `_post_process_results`)
strictly alternates in kind: no two consecutive entries share a kind. -/
theorem alternating_family_strategy_alternation (data : List ℚ) (threshold : ℚ) :
    (sortByIdx (tagList Kind.kmin (detect_alternating data threshold).1 ++
        tagList Kind.kmax (detect_alternating data threshold).2)).Chain'
      (fun p q => p.kind ≠ q.kind) ∧
    (sortByIdx (tagList Kind.kmin (detect_enhanced data threshold).1 ++
        tagList Kind.kmax (detect_enhanced data threshold).2)).Chain'
      (fun p q => p.kind ≠ q.kind) ∧
    (sortByIdx (tagList Kind.kmin (detect_strict data threshold).1 ++
        tagList Kind.kmax (detect_strict data threshold).2)).Chain'
      (fun p q => p.kind ≠ q.kind) := by
  refine ⟨?_, ?_, ?_⟩
  · by_cases h : data.length < 5
    · simp [detect_alternating, h, tagList, projectKind, sortByIdx, isort]
    · simp only [detect_alternating, if_neg h]
      have hm := walk_merged_chain (fun _ => true) (alternatingAccept threshold)
        (alternatingCands data threshold) (alternatingAccept_ne threshold)
        (alternatingCands_pairwise data threshold)
      rw [hm.1]
      exact hm.2
  · by_cases h : data.length < 7
    · simp [detect_enhanced, h, tagList, projectKind, sortByIdx, isort]
    · simp only [detect_enhanced, if_neg h]
      have hm := walk_merged_chain (fun _ => true)
        (enhancedAccept threshold (enhancedMinThreshold data))
        (sevenPointCands data (enhancedMinThreshold data))
        (enhancedAccept_ne threshold (enhancedMinThreshold data))
        (sevenPointCands_pairwise data (enhancedMinThreshold data))
      rw [hm.1]
      exact hm.2
  · by_cases h : data.length < 7
    · simp [detect_strict, h, tagList, projectKind, sortByIdx, isort]
    · simp only [detect_strict, if_neg h]
      have hm := walk_merged_chain (strictFirst (2/5))
        (strictAccept threshold (2/5)) (sevenPointCands data (2/5))
        (strictAccept_ne threshold (2/5))
        (sevenPointCands_pairwise data (2/5))
      rw [hm.1]
      exact hm.2

set_option maxRecDepth 100000

/-- C1 (counterexample): a concrete detection run with the alternating
strategy (default threshold `0.0001`, default window size, noise level exactly
`2 = √(diffVariance exSeq)`) whose refined output does *not* alternate in
kind: the refiner's quality filter drops the minimum at index 12, leaving the
maxima at indices 9 and 17 adjacent in index order. -/
theorem alternation_fails_after_refinement :
    (0 : ℚ) ≤ 2 ∧ (2 : ℚ) ^ 2 = diffVariance exSeq ∧
    ¬ (sortByIdx (tagList Kind.kmin
          (detect_extrema exSeq "alternating" (1/10000) 3 2).1 ++
        tagList Kind.kmax
          (detect_extrema exSeq "alternating" (1/10000) 3 2).2)).Chain'
      (fun p q => p.kind ≠ q.kind) := by
  refine ⟨by norm_num, by with_unfolding_all decide, ?_⟩
  have hm : sortByIdx (tagList Kind.kmin
        (detect_extrema exSeq "alternating" (1/10000) 3 2).1 ++
      tagList Kind.kmax
        (detect_extrema exSeq "alternating" (1/10000) 3 2).2) =
      [⟨Kind.kmax, 2, 2⟩, ⟨Kind.kmin, 5, -1⟩, ⟨Kind.kmax, 9, 3⟩,
       ⟨Kind.kmax, 17, 3⟩, ⟨Kind.kmin, 20, 0⟩, ⟨Kind.kmax, 23, 3⟩,
       ⟨Kind.kmin, 26, 0⟩, ⟨Kind.kmax, 28, 2⟩] := by
    with_unfolding_all decide
  intro hch
  rw [hm] at hch
  exact (List.chain'_cons.mp (List.chain'_cons.mp
    (List.chain'_cons.mp hch).2).2).1 rfl

/-- C2: for every sequence of length `< 3` and every configuration — any
method string (recognized or not), any threshold, window size and noise level,
and also the automatic-selection entry point — detection returns
`([], [])`. -/
theorem detect_extrema_short_input (data : List ℚ) (h : data.length < 3) :
    (∀ (method : String) (threshold : ℚ) (window_size : ℕ) (noise_level : ℚ),
      detect_extrema data method threshold window_size noise_level = ([], [])) ∧
    (∀ (threshold : ℚ) (window_size : ℕ) (noise_level std_val : ℚ),
      detect_extrema_auto data threshold window_size noise_level std_val
        = ([], [])) := by
  constructor
  · intro method t w n
    unfold detect_extrema
    rw [if_pos h]
  · intro t w n s
    unfold detect_extrema_auto
    rw [if_pos h]

/-- Witness for C2 at the concrete input `[1, 2]`. -/
theorem detect_extrema_short_input_check :
    ([1, 2] : List ℚ).length < 3 ∧
    detect_extrema [1, 2] "slope" 5 0 (-3) = ([], []) ∧
    detect_extrema_auto [1, 2] 5 0 (-3) 7 = ([], []) :=
  ⟨by norm_num,
   (detect_extrema_short_input [1, 2] (by norm_num)).1 "slope" 5 0 (-3),
   (detect_extrema_short_input [1, 2] (by norm_num)).2 5 0 (-3) 7⟩

/-- When the quality window has radius `0` (i.e. `min 3 (length/10) = 0`), the
local window of an in-range extremum whose value is its own data value is the
singleton `[data[idx]]`, so the extremum always passes the quality test for a
nonnegative noise level. -/
theorem qualityKeep_radius_zero (data : List ℚ) (noise_level : ℚ) (b : Bool)
    (e : Extremum) (hws : data.length / 10 = 0) (hlt : e.1 < data.length)
    (hval : e.2 = atD data e.1) (hn : 0 ≤ noise_level) :
    qualityKeep data noise_level b e = some e := by
  unfold qualityKeep
  dsimp only
  rw [show min 3 (data.length / 10) = 0 from by rw [hws]; rfl]
  rw [Nat.sub_zero, Nat.add_zero]
  rw [show min data.length (e.1 + 1) = e.1 + 1 from min_eq_right (by omega)]
  rw [show e.1 + 1 - e.1 = 1 from by omega]
  rw [List.drop_eq_getElem_cons hlt]
  rw [List.take_succ_cons, List.take_zero]
  have hx : data[e.1] = atD data e.1 := (List.getD_eq_getElem data 0 hlt).symm
  rw [hx]
  rw [if_neg (by simp : ¬ ([atD data e.1] : List ℚ) = [])]
  have hlmax : listMax [atD data e.1] = atD data e.1 := rfl
  have hlmin : listMin [atD data e.1] = atD data e.1 := rfl
  cases b
  · rw [if_neg Bool.false_ne_true]
    rw [if_pos ?_]
    rw [hlmax, hval]
    linarith
  · rw [if_pos rfl]
    rw [if_pos ?_]
    rw [hlmin, hval]
    linarith

/-- C3: on the sequence `[0,5,1,6,2,7,0]` with the Simple strategy and
threshold `0.0001`, detection returns minima `[(2,1),(4,2)]` and maxima
`[(1,5),(3,6),(5,7)]` — for every noise level (the quality window has radius
`0` here, so the quality filter keeps everything whenever it runs) and every
window size (unused by the Simple strategy). -/
theorem simple_scenario (noise_level : ℚ) (window_size : ℕ) :
    detect_extrema [0, 5, 1, 6, 2, 7, 0] "simple" (1/10000) window_size
        noise_level
      = ([(2, 1), (4, 2)], [(1, 5), (3, 6), (5, 7)]) := by
  have hsimple : detect_simple [0, 5, 1, 6, 2, 7, 0] (1/10000)
      = ([(2, 1), (4, 2)], [(1, 5), (3, 6), (5, 7)]) := by
    with_unfolding_all decide
  unfold detect_extrema runMethod
  rw [if_neg (by norm_num), if_pos rfl, hsimple]
  unfold post_process_results
  have hded1 : dedupSort [((2 : ℕ), (1 : ℚ)), (4, 2)] = [(2, 1), (4, 2)] := by
    with_unfolding_all decide
  have hded2 : dedupSort [((1 : ℕ), (5 : ℚ)), (3, 6), (5, 7)]
      = [(1, 5), (3, 6), (5, 7)] := by with_unfolding_all decide
  have hdist : max 2 (([0, 5, 1, 6, 2, 7, 0] : List ℚ).length / 100) = 2 := rfl
  have hrc1 : remove_close_extrema [((2 : ℕ), (1 : ℚ)), (4, 2)] 2
      = [(2, 1), (4, 2)] := by with_unfolding_all decide
  have hrc2 : remove_close_extrema [((1 : ℕ), (5 : ℚ)), (3, 6), (5, 7)] 2
      = [(1, 5), (3, 6), (5, 7)] := by with_unfolding_all decide
  simp only
  rw [hded1, hded2, hdist, hrc1, hrc2]
  by_cases hn : 0 < noise_level
  · rw [if_pos hn]
    have hws : ([0, 5, 1, 6, 2, 7, 0] : List ℚ).length / 10 = 0 := rfl
    have hq : ∀ (b : Bool) (e : Extremum), e.1 < 7 → e.2 = atD [0, 5, 1, 6, 2, 7, 0] e.1 →
        qualityKeep [0, 5, 1, 6, 2, 7, 0] noise_level b e = some e := by
      intro b e h1 h2
      exact qualityKeep_radius_zero _ _ b e hws (by simpa using h1) h2 (le_of_lt hn)
    unfold filter_by_quality
    rw [List.filterMap_cons, List.filterMap_cons, List.filterMap_nil,
        List.filterMap_cons, List.filterMap_cons, List.filterMap_cons,
        List.filterMap_nil]
    rw [hq true (2, 1) (by norm_num) (by with_unfolding_all decide),
        hq true (4, 2) (by norm_num) (by with_unfolding_all decide),
        hq false (1, 5) (by norm_num) (by with_unfolding_all decide),
        hq false (3, 6) (by norm_num) (by with_unfolding_all decide),
        hq false (5, 7) (by norm_num) (by with_unfolding_all decide)]
  · rw [if_neg hn]

/-- C7: the threshold filter returns exactly the maxima with value
`≥ maxValueThreshold` (in original order) when `maxValueThreshold > 0` and the
unchanged maxima list otherwise (in particular when it is `0`); symmetrically
it returns exactly the minima with value `≤ minValueThreshold` when
`minValueThreshold < 999` and the unchanged minima list when
`minValueThreshold ≥ 999`.  Both outputs are sublists of the inputs. -/
theorem apply_threshold_filter_spec (minima maxima : List Extremum)
    (max_threshold min_threshold : ℚ) :
    (apply_threshold_filter minima maxima max_threshold min_threshold).2
      = (if 0 < max_threshold then
          maxima.filter fun p => max_threshold ≤ p.2
         else maxima) ∧
    (apply_threshold_filter minima maxima max_threshold min_threshold).1
      = (if min_threshold < 999 then
          minima.filter fun p => p.2 ≤ min_threshold
         else minima) ∧
    List.Sublist (apply_threshold_filter minima maxima max_threshold
      min_threshold).2 maxima ∧
    List.Sublist (apply_threshold_filter minima maxima max_threshold
      min_threshold).1 minima := by
  refine ⟨rfl, rfl, ?_, ?_⟩
  · unfold apply_threshold_filter
    dsimp only
    split
    · exact List.filter_sublist _
    · exact List.Sublist.refl _
  · unfold apply_threshold_filter
    dsimp only
    split
    · exact List.filter_sublist _
    · exact List.Sublist.refl _

/-- C8: the count filter is the identity for the methods `alternating`,
`enhanced` and `strict` whatever the count limits; for any other method it
keeps the `maxCountLimit` maxima of largest absolute value (stable descending
sort, then a prefix) when `0 < maxCountLimit < len(maxima)`, symmetrically for
minima, and otherwise keeps the lists unchanged.  On the concrete scenario
`maxCountLimit = 1`, maxima `[(1,5),(3,6),(5,7)]`, method `simple`, the result
is `[(5,7)]`. -/
theorem filter_results_by_count_spec :
    (∀ (minima maxima : List Extremum) (maxc minc : ℕ),
      filter_results_by_count minima maxima maxc minc "alternating"
          = (minima, maxima) ∧
      filter_results_by_count minima maxima maxc minc "enhanced"
          = (minima, maxima) ∧
      filter_results_by_count minima maxima maxc minc "strict"
          = (minima, maxima)) ∧
    (∀ (minima maxima : List Extremum) (maxc minc : ℕ) (method : String),
      filter_results_by_count minima maxima maxc minc method =
        if method = "alternating" ∨ method = "enhanced" ∨ method = "strict" then
          (minima, maxima)
        else
          ((if 0 < minc ∧ minc < minima.length then
              (sortByAbsDesc minima).take minc else minima),
           (if 0 < maxc ∧ maxc < maxima.length then
              (sortByAbsDesc maxima).take maxc else maxima))) ∧
    filter_results_by_count [] [(1, 5), (3, 6), (5, 7)] 1 0 "simple"
      = ([], [(5, 7)]) := by
  refine ⟨?_, ?_, ?_⟩
  · intro minima maxima maxc minc
    refine ⟨?_, ?_, ?_⟩ <;>
      · unfold filter_results_by_count
        rw [if_pos (by simp)]
  · intro minima maxima maxc minc method
    rfl
  · with_unfolding_all decide

/-- For `k ≤ l.length`, reading `l.getD i d` at `i = 0, …, k-1` yields the
`k`-prefix of `l`. -/
theorem range_map_getD_take {α : Type} (l : List α) (d : α) :
    ∀ k, k ≤ l.length → (List.range k).map (fun i => l.getD i d) = l.take k := by
  induction l with
  | nil =>
    intro k hk
    have : k = 0 := by simpa using hk
    subst this
    simp
  | cons x xs ih =>
    intro k hk
    match k with
    | 0 => simp
    | k + 1 =>
      rw [List.range_succ_eq_map, List.map_cons, List.map_map, List.take_succ_cons]
      have h1 : ((x :: xs).getD 0 d) = x := rfl
      rw [h1]
      have h2 : ((fun i => (x :: xs).getD i d) ∘ Nat.succ)
          = fun i => xs.getD i d := rfl
      rw [h2, ih k (by simpa using hk)]

/-- C9: the pairing operation produces exactly
`min (len maxima) (len minima)` pairs; the `i`-th emitted pair combines the
`i`-th entry of the index-sorted maxima with the `i`-th entry of the
index-sorted minima, its `difference` equals `maxValue - minValue`, and pair
numbers are `1, 2, …` in emission order. -/
theorem calculate_differences_spec (minima maxima : List Extremum) :
    (calculate_differences minima maxima).length
        = min maxima.length minima.length ∧
    ((calculate_differences minima maxima).map fun p => p.difference)
        = ((calculate_differences minima maxima).map fun p =>
            p.max_value - p.min_value) ∧
    ((calculate_differences minima maxima).map fun p => (p.max_index, p.max_value))
        = (sortByIdxE maxima).take (min maxima.length minima.length) ∧
    ((calculate_differences minima maxima).map fun p => (p.min_index, p.min_value))
        = (sortByIdxE minima).take (min maxima.length minima.length) ∧
    ((calculate_differences minima maxima).map fun p => p.pair_number)
        = (List.range (min maxima.length minima.length)).map (· + 1) := by
  have hlx : (sortByIdxE maxima).length = maxima.length :=
    (isort_perm _ maxima).length_eq
  have hln : (sortByIdxE minima).length = minima.length :=
    (isort_perm _ minima).length_eq
  have hmin : min (sortByIdxE maxima).length (sortByIdxE minima).length
      = min maxima.length minima.length := by rw [hlx, hln]
  refine ⟨?_, ?_, ?_, ?_, ?_⟩
  · unfold calculate_differences
    dsimp only
    rw [List.length_map, List.length_range, hmin]
  · unfold calculate_differences
    dsimp only
    rw [List.map_map, List.map_map]
    rfl
  · unfold calculate_differences
    dsimp only
    rw [List.map_map]
    have h : ((fun p : DiffPair => (p.max_index, p.max_value)) ∘ fun i =>
        (⟨i + 1, ((sortByIdxE maxima).getD i (0, 0)).1,
          ((sortByIdxE maxima).getD i (0, 0)).2,
          ((sortByIdxE minima).getD i (0, 0)).1,
          ((sortByIdxE minima).getD i (0, 0)).2,
          ((sortByIdxE maxima).getD i (0, 0)).2 -
            ((sortByIdxE minima).getD i (0, 0)).2⟩ : DiffPair))
        = fun i => (sortByIdxE maxima).getD i (0, 0) := rfl
    rw [hmin, h, range_map_getD_take _ _ _ (by omega)]
  · unfold calculate_differences
    dsimp only
    rw [List.map_map]
    have h : ((fun p : DiffPair => (p.min_index, p.min_value)) ∘ fun i =>
        (⟨i + 1, ((sortByIdxE maxima).getD i (0, 0)).1,
          ((sortByIdxE maxima).getD i (0, 0)).2,
          ((sortByIdxE minima).getD i (0, 0)).1,
          ((sortByIdxE minima).getD i (0, 0)).2,
          ((sortByIdxE maxima).getD i (0, 0)).2 -
            ((sortByIdxE minima).getD i (0, 0)).2⟩ : DiffPair))
        = fun i => (sortByIdxE minima).getD i (0, 0) := rfl
    rw [hmin, h, range_map_getD_take _ _ _ (by omega)]
  · unfold calculate_differences
    dsimp only
    rw [List.map_map, hmin]
    rfl

section SnapLemmas

theorem foldl_max_spec (data : List ℚ) :
    ∀ (k s : ℕ) (best r : ℕ × ℚ), best.2 = atD data best.1 →
      r = (List.range' s k).foldl
        (fun b i => if b.2 < atD data i then (i, atD data i) else b) best →
      (r = best ∨ (s ≤ r.1 ∧ r.1 < s + k)) ∧ r.2 = atD data r.1 ∧
        best.2 ≤ r.2 ∧ ∀ j, s ≤ j → j < s + k → atD data j ≤ r.2 := by
  intro k
  induction k with
  | zero =>
    intro s best r hb hr
    simp only [List.range'_zero, List.foldl_nil] at hr
    subst hr
    exact ⟨Or.inl rfl, hb, le_refl _, fun j h1 h2 => absurd h2 (by omega)⟩
  | succ k ih =>
    intro s best r hb hr
    rw [List.range'_succ, List.foldl_cons] at hr
    by_cases hc : best.2 < atD data s
    · rw [if_pos hc] at hr
      obtain ⟨h1, h2, h3, h4⟩ := ih (s + 1) (s, atD data s) r rfl hr
      refine ⟨?_, h2, le_trans (le_of_lt hc) h3, ?_⟩
      · rcases h1 with he | hrange
        · right
          rw [he]
          exact ⟨le_refl s, by omega⟩
        · right
          exact ⟨by omega, by omega⟩
      · intro j hj1 hj2
        rcases Nat.eq_or_lt_of_le hj1 with he | hlt
        · rw [← he]
          exact le_trans (le_refl _) h3
        · exact h4 j hlt (by omega)
    · rw [if_neg hc] at hr
      obtain ⟨h1, h2, h3, h4⟩ := ih (s + 1) best r hb hr
      refine ⟨?_, h2, h3, ?_⟩
      · rcases h1 with he | hrange
        · exact Or.inl he
        · exact Or.inr ⟨by omega, by omega⟩
      · intro j hj1 hj2
        rcases Nat.eq_or_lt_of_le hj1 with he | hlt
        · rw [← he]
          exact le_trans (le_of_not_lt hc) h3
        · exact h4 j hlt (by omega)

theorem foldl_min_spec (data : List ℚ) :
    ∀ (k s : ℕ) (best r : ℕ × ℚ), best.2 = atD data best.1 →
      r = (List.range' s k).foldl
        (fun b i => if atD data i < b.2 then (i, atD data i) else b) best →
      (r = best ∨ (s ≤ r.1 ∧ r.1 < s + k)) ∧ r.2 = atD data r.1 ∧
        r.2 ≤ best.2 ∧ ∀ j, s ≤ j → j < s + k → r.2 ≤ atD data j := by
  intro k
  induction k with
  | zero =>
    intro s best r hb hr
    simp only [List.range'_zero, List.foldl_nil] at hr
    subst hr
    exact ⟨Or.inl rfl, hb, le_refl _, fun j h1 h2 => absurd h2 (by omega)⟩
  | succ k ih =>
    intro s best r hb hr
    rw [List.range'_succ, List.foldl_cons] at hr
    by_cases hc : atD data s < best.2
    · rw [if_pos hc] at hr
      obtain ⟨h1, h2, h3, h4⟩ := ih (s + 1) (s, atD data s) r rfl hr
      refine ⟨?_, h2, le_trans h3 (le_of_lt hc), ?_⟩
      · rcases h1 with he | hrange
        · right
          rw [he]
          exact ⟨le_refl s, by omega⟩
        · right
          exact ⟨by omega, by omega⟩
      · intro j hj1 hj2
        rcases Nat.eq_or_lt_of_le hj1 with he | hlt
        · rw [← he]
          exact h3
        · exact h4 j hlt (by omega)
    · rw [if_neg hc] at hr
      obtain ⟨h1, h2, h3, h4⟩ := ih (s + 1) best r hb hr
      refine ⟨?_, h2, h3, ?_⟩
      · rcases h1 with he | hrange
        · exact Or.inl he
        · exact Or.inr ⟨by omega, by omega⟩
      · intro j hj1 hj2
        rcases Nat.eq_or_lt_of_le hj1 with he | hlt
        · rw [← he]
          exact le_trans h3 (le_of_not_lt hc)
        · exact h4 j hlt (by omega)

theorem slice_eq_map_range (data : List ℚ) :
    ∀ (k s : ℕ), s + k ≤ data.length →
      (data.drop s).take k = (List.range' s k).map (atD data) := by
  intro k
  induction k with
  | zero => intro s h; simp
  | succ k ih =>
    intro s h
    have hs : s < data.length := by omega
    rw [List.drop_eq_getElem_cons hs, List.take_succ_cons, List.range'_succ,
      List.map_cons]
    congr 1
    · exact (List.getD_eq_getElem data 0 hs).symm
    · have := ih (s + 1) (by omega)
      rw [← this]

theorem listMax_mem : ∀ (l : List ℚ), l ≠ [] → listMax l ∈ l := by
  intro l
  match l with
  | [] => intro h; exact absurd rfl h
  | x :: xs =>
    intro hne
    show xs.foldl max x ∈ x :: xs
    clear hne
    induction xs generalizing x with
    | nil => simp
    | cons y ys ih =>
      rw [List.foldl_cons]
      rcases max_choice x y with hm | hm
      · rw [hm]
        rcases List.mem_cons.mp (ih x) with he | hmem'
        · rw [he]; exact List.mem_cons_self _ _
        · exact List.mem_cons_of_mem _ (List.mem_cons_of_mem _ hmem')
      · rw [hm]
        rcases List.mem_cons.mp (ih y) with he | hmem'
        · rw [he]
          exact List.mem_cons_of_mem _ (List.mem_cons_self _ _)
        · exact List.mem_cons_of_mem _ (List.mem_cons_of_mem _ hmem')

theorem le_listMax : ∀ (l : List ℚ) (y : ℚ), y ∈ l → y ≤ listMax l := by
  intro l
  match l with
  | [] => intro y h; exact absurd h (List.not_mem_nil y)
  | x :: xs =>
    show ∀ y, y ∈ x :: xs → y ≤ xs.foldl max x
    induction xs generalizing x with
    | nil => intro y hy; simp at hy; simp [listMax, hy]
    | cons z zs ih =>
      intro y hy
      rw [List.foldl_cons]
      rcases List.mem_cons.mp hy with he | hy'
      · subst he
        exact le_trans (le_max_left y z) (ih (max y z) _ (List.mem_cons_self _ _))
      · rcases List.mem_cons.mp hy' with he | hy''
        · subst he
          exact le_trans (le_max_right x y) (ih (max x y) _ (List.mem_cons_self _ _))
        · exact ih (max x z) y (List.mem_cons_of_mem _ hy'')

theorem listMin_mem : ∀ (l : List ℚ), l ≠ [] → listMin l ∈ l := by
  intro l
  match l with
  | [] => intro h; exact absurd rfl h
  | x :: xs =>
    intro hne
    show xs.foldl min x ∈ x :: xs
    clear hne
    induction xs generalizing x with
    | nil => simp
    | cons y ys ih =>
      rw [List.foldl_cons]
      rcases min_choice x y with hm | hm
      · rw [hm]
        rcases List.mem_cons.mp (ih x) with he | hmem'
        · rw [he]; exact List.mem_cons_self _ _
        · exact List.mem_cons_of_mem _ (List.mem_cons_of_mem _ hmem')
      · rw [hm]
        rcases List.mem_cons.mp (ih y) with he | hmem'
        · rw [he]
          exact List.mem_cons_of_mem _ (List.mem_cons_self _ _)
        · exact List.mem_cons_of_mem _ (List.mem_cons_of_mem _ hmem')

theorem listMin_le : ∀ (l : List ℚ) (y : ℚ), y ∈ l → listMin l ≤ y := by
  intro l
  match l with
  | [] => intro y h; exact absurd h (List.not_mem_nil y)
  | x :: xs =>
    show ∀ y, y ∈ x :: xs → xs.foldl min x ≤ y
    induction xs generalizing x with
    | nil => intro y hy; simp at hy; simp [listMin, hy]
    | cons z zs ih =>
      intro y hy
      rw [List.foldl_cons]
      rcases List.mem_cons.mp hy with he | hy'
      · subst he
        exact le_trans (ih (min y z) _ (List.mem_cons_self _ _)) (min_le_left y z)
      · rcases List.mem_cons.mp hy' with he | hy''
        · subst he
          exact le_trans (ih (min x y) _ (List.mem_cons_self _ _)) (min_le_right x y)
        · exact ih (min x z) y (List.mem_cons_of_mem _ hy'')

theorem listMax_eq_of {l : List ℚ} {x : ℚ} (hx : x ∈ l)
    (hub : ∀ y ∈ l, y ≤ x) : listMax l = x := by
  have hne : l ≠ [] := by
    intro h
    rw [h] at hx
    exact absurd hx (List.not_mem_nil x)
  exact le_antisymm (hub _ (listMax_mem l hne)) (le_listMax l x hx)

theorem listMin_eq_of {l : List ℚ} {x : ℚ} (hx : x ∈ l)
    (hlb : ∀ y ∈ l, x ≤ y) : listMin l = x := by
  have hne : l ≠ [] := by
    intro h
    rw [h] at hx
    exact absurd hx (List.not_mem_nil x)
  exact le_antisymm (listMin_le l x hx) (hlb _ (listMin_mem l hne))

end SnapLemmas

/-- C6: for a valid approximate index `a < length`, the manual-snap
search returns an index inside the window `[max(0, a-10), min(length, a+11))`
whose value is the data value there, equal to the maximum value over that
window for a max-kind selection and to the minimum value over that window for
a min-kind selection. -/
theorem find_extrema_around_spec (data : List ℚ) (a : ℕ)
    (h : a < data.length) :
    (a - 10 ≤ (find_local_max_around data a).1 ∧
     (find_local_max_around data a).1 < min data.length (a + 11) ∧
     (find_local_max_around data a).2
        = atD data (find_local_max_around data a).1 ∧
     (find_local_max_around data a).2
        = listMax ((data.drop (a - 10)).take
            (min data.length (a + 11) - (a - 10)))) ∧
    (a - 10 ≤ (find_local_min_around data a).1 ∧
     (find_local_min_around data a).1 < min data.length (a + 11) ∧
     (find_local_min_around data a).2
        = atD data (find_local_min_around data a).1 ∧
     (find_local_min_around data a).2
        = listMin ((data.drop (a - 10)).take
            (min data.length (a + 11) - (a - 10)))) := by
  have hse : a - 10 + (min data.length (a + 11) - (a - 10))
      = min data.length (a + 11) := by omega
  have hslice := slice_eq_map_range data
    (min data.length (a + 11) - (a - 10)) (a - 10) (by omega)
  constructor
  · obtain ⟨h1, h2, h3, h4⟩ := foldl_max_spec data
      (min data.length (a + 11) - (a - 10)) (a - 10) (a, atD data a)
      (find_local_max_around data a) rfl rfl
    have hwin : a - 10 ≤ (find_local_max_around data a).1 ∧
        (find_local_max_around data a).1 < min data.length (a + 11) := by
      rcases h1 with he | hrange
      · rw [he]
        exact ⟨by omega, by omega⟩
      · exact ⟨hrange.1, by omega⟩
    refine ⟨hwin.1, hwin.2, h2, ?_⟩
    rw [hslice]
    refine (listMax_eq_of ?_ ?_).symm
    · rw [h2]
      exact List.mem_map_of_mem _ (List.mem_range'_1.mpr ⟨hwin.1, by omega⟩)
    · intro y hy
      rcases List.mem_map.mp hy with ⟨j, hj, rfl⟩
      rcases List.mem_range'_1.mp hj with ⟨hj1, hj2⟩
      exact h4 j hj1 (by omega)
  · obtain ⟨h1, h2, h3, h4⟩ := foldl_min_spec data
      (min data.length (a + 11) - (a - 10)) (a - 10) (a, atD data a)
      (find_local_min_around data a) rfl rfl
    have hwin : a - 10 ≤ (find_local_min_around data a).1 ∧
        (find_local_min_around data a).1 < min data.length (a + 11) := by
      rcases h1 with he | hrange
      · rw [he]
        exact ⟨by omega, by omega⟩
      · exact ⟨hrange.1, by omega⟩
    refine ⟨hwin.1, hwin.2, h2, ?_⟩
    rw [hslice]
    refine (listMin_eq_of ?_ ?_).symm
    · rw [h2]
      exact List.mem_map_of_mem _ (List.mem_range'_1.mpr ⟨hwin.1, by omega⟩)
    · intro y hy
      rcases List.mem_map.mp hy with ⟨j, hj, rfl⟩
      rcases List.mem_range'_1.mp hj with ⟨hj1, hj2⟩
      exact h4 j hj1 (by omega)

/-- Witness for C6 at the concrete input `[1, 5, 2]`, `a = 0`. -/
theorem find_extrema_around_spec_check :
    0 < ([1, 5, 2] : List ℚ).length ∧
    ((0 - 10 ≤ (find_local_max_around [1, 5, 2] 0).1 ∧
      (find_local_max_around [1, 5, 2] 0).1 < min ([1, 5, 2] : List ℚ).length (0 + 11) ∧
      (find_local_max_around [1, 5, 2] 0).2
         = atD [1, 5, 2] (find_local_max_around [1, 5, 2] 0).1 ∧
      (find_local_max_around [1, 5, 2] 0).2
         = listMax ((([1, 5, 2] : List ℚ).drop (0 - 10)).take
             (min ([1, 5, 2] : List ℚ).length (0 + 11) - (0 - 10)))) ∧
     (0 - 10 ≤ (find_local_min_around [1, 5, 2] 0).1 ∧
      (find_local_min_around [1, 5, 2] 0).1 < min ([1, 5, 2] : List ℚ).length (0 + 11) ∧
      (find_local_min_around [1, 5, 2] 0).2
         = atD [1, 5, 2] (find_local_min_around [1, 5, 2] 0).1 ∧
      (find_local_min_around [1, 5, 2] 0).2
         = listMin ((([1, 5, 2] : List ℚ).drop (0 - 10)).take
             (min ([1, 5, 2] : List ℚ).length (0 + 11) - (0 - 10))))) :=
  ⟨by norm_num, find_extrema_around_spec [1, 5, 2] 0 (by norm_num)⟩

section RefinerLemmas

theorem dedupInsert_mem : ∀ (acc : List Extremum) (x p : Extremum),
    p ∈ dedupInsert x acc → p = x ∨ p ∈ acc := by
  intro acc
  induction acc with
  | nil =>
    intro x p hp
    simp [dedupInsert] at hp
    exact Or.inl hp
  | cons y ys ih =>
    intro x p hp
    unfold dedupInsert at hp
    split at hp
    · rcases List.mem_cons.mp hp with he | h2
      · exact Or.inl he
      · exact Or.inr h2
    · split at hp
      · rcases List.mem_cons.mp hp with he | h2
        · exact Or.inl he
        · exact Or.inr (List.mem_cons_of_mem _ h2)
      · rcases List.mem_cons.mp hp with he | h2
        · exact Or.inr (he ▸ List.mem_cons_self _ _)
        · rcases ih x p h2 with h3 | h3
          · exact Or.inl h3
          · exact Or.inr (List.mem_cons_of_mem _ h3)

theorem dedupSort_foldl_mem : ∀ (l acc : List Extremum) (p : Extremum),
    p ∈ l.foldl (fun a x => dedupInsert x a) acc → p ∈ acc ∨ p ∈ l := by
  intro l
  induction l with
  | nil =>
    intro acc p hp
    exact Or.inl hp
  | cons x xs ih =>
    intro acc p hp
    rcases ih (dedupInsert x acc) p hp with h | h
    · rcases dedupInsert_mem acc x p h with he | h2
      · exact Or.inr (he ▸ List.mem_cons_self _ _)
      · exact Or.inl h2
    · exact Or.inr (List.mem_cons_of_mem _ h)

theorem dedupSort_mem {l : List Extremum} {p : Extremum}
    (hp : p ∈ dedupSort l) : p ∈ l := by
  rcases dedupSort_foldl_mem l [] p hp with h | h
  · exact absurd h (List.not_mem_nil p)
  · exact h

theorem dedupInsert_sorted : ∀ {acc : List Extremum},
    acc.Sorted (fun a b => a.1 < b.1) → ∀ (x : Extremum),
    (dedupInsert x acc).Sorted fun a b => a.1 < b.1 := by
  intro acc
  induction acc with
  | nil =>
    intro _ x
    simp [dedupInsert]
  | cons y ys ih =>
    intro hs x
    rcases List.sorted_cons.mp hs with ⟨hy, hys⟩
    unfold dedupInsert
    split
    · rename_i hlt
      refine List.sorted_cons.mpr ⟨?_, hs⟩
      intro b hb
      rcases List.mem_cons.mp hb with he | hb'
      · rw [he]
        exact hlt
      · exact lt_trans hlt (hy b hb')
    · split
      · rename_i heq
        refine List.sorted_cons.mpr ⟨?_, hys⟩
        intro b hb
        rw [heq]
        exact hy b hb
      · rename_i hlt heq
        refine List.sorted_cons.mpr ⟨?_, ih hys x⟩
        intro b hb
        rcases dedupInsert_mem ys x b hb with he | hb'
        · rw [he]
          omega
        · exact hy b hb'

theorem dedupSort_foldl_sorted : ∀ (l acc : List Extremum),
    acc.Sorted (fun a b => a.1 < b.1) →
    (l.foldl (fun a x => dedupInsert x a) acc).Sorted fun a b => a.1 < b.1 := by
  intro l
  induction l with
  | nil => intro acc h; exact h
  | cons x xs ih => intro acc h; exact ih _ (dedupInsert_sorted h x)

theorem dedupSort_sorted (l : List Extremum) :
    (dedupSort l).Sorted fun a b => a.1 < b.1 :=
  dedupSort_foldl_sorted l [] (by simp)

theorem dedupInsert_append : ∀ (acc : List Extremum) (x : Extremum),
    (∀ y ∈ acc, y.1 < x.1) → dedupInsert x acc = acc ++ [x] := by
  intro acc
  induction acc with
  | nil => intro x _; rfl
  | cons y ys ih =>
    intro x h
    have hy := h y (List.mem_cons_self _ _)
    unfold dedupInsert
    rw [if_neg (by omega), if_neg (by omega)]
    rw [ih x fun z hz => h z (List.mem_cons_of_mem _ hz)]
    rfl

theorem dedupSort_foldl_eq : ∀ (l acc : List Extremum),
    (acc ++ l).Sorted (fun a b => a.1 < b.1) →
    l.foldl (fun a x => dedupInsert x a) acc = acc ++ l := by
  intro l
  induction l with
  | nil => intro acc _; simp
  | cons x xs ih =>
    intro acc hs
    have hcross := (List.pairwise_append.mp hs).2.2
    have hx : ∀ y ∈ acc, y.1 < x.1 := fun y hy =>
      hcross y hy x (List.mem_cons_self _ _)
    rw [List.foldl_cons]
    show List.foldl (fun a x => dedupInsert x a) (dedupInsert x acc) xs
      = acc ++ x :: xs
    rw [dedupInsert_append acc x hx]
    have hassoc : (acc ++ [x]) ++ xs = acc ++ x :: xs := by simp
    rw [ih (acc ++ [x]) (by rw [hassoc]; exact hs), hassoc]

theorem dedupSort_eq_of_sorted {l : List Extremum}
    (h : l.Sorted fun a b => a.1 < b.1) : dedupSort l = l := by
  have hr := dedupSort_foldl_eq l [] (by simpa using h)
  simpa using hr

theorem removeCloseGo_sublist (d : ℕ) : ∀ (l : List Extremum) (k : ℕ),
    List.Sublist (removeCloseGo d k l) l := by
  intro l
  induction l with
  | nil => intro k; exact List.Sublist.refl _
  | cons y ys ih =>
    intro k
    unfold removeCloseGo
    split
    · exact List.Sublist.cons₂ y (ih y.1)
    · exact List.Sublist.cons y (ih k)

theorem remove_close_sublist (l : List Extremum) (d : ℕ) :
    List.Sublist (remove_close_extrema l d) l := by
  cases l with
  | nil => exact List.Sublist.refl _
  | cons x xs => exact List.Sublist.cons₂ x (removeCloseGo_sublist d xs x.1)

theorem removeCloseGo_chain (d : ℕ) : ∀ (l : List Extremum) (last : Extremum),
    (last :: removeCloseGo d last.1 l).Chain'
      fun a b => (d : ℤ) ≤ (b.1 : ℤ) - (a.1 : ℤ) := by
  intro l
  induction l with
  | nil => intro last; simp [removeCloseGo]
  | cons y ys ih =>
    intro last
    unfold removeCloseGo
    split
    · rename_i hcond
      exact List.chain'_cons.mpr ⟨hcond, ih y⟩
    · exact ih last

theorem remove_close_chain (l : List Extremum) (d : ℕ) :
    (remove_close_extrema l d).Chain'
      fun a b => (d : ℤ) ≤ (b.1 : ℤ) - (a.1 : ℤ) := by
  cases l with
  | nil => simp [remove_close_extrema]
  | cons x xs => exact removeCloseGo_chain d xs x

theorem removeCloseGo_eq_of_chain (d : ℕ) : ∀ (l : List Extremum)
    (last : Extremum),
    ((last :: l).Chain' fun a b => (d : ℤ) ≤ (b.1 : ℤ) - (a.1 : ℤ)) →
    removeCloseGo d last.1 l = l := by
  intro l
  induction l with
  | nil => intro last _; rfl
  | cons y ys ih =>
    intro last h
    rcases List.chain'_cons.mp h with ⟨h1, h2⟩
    unfold removeCloseGo
    rw [if_pos h1, ih y h2]

theorem remove_close_eq_of_chain {l : List Extremum} {d : ℕ}
    (h : l.Chain' fun a b => (d : ℤ) ≤ (b.1 : ℤ) - (a.1 : ℤ)) :
    remove_close_extrema l d = l := by
  cases l with
  | nil => rfl
  | cons x xs =>
    show x :: removeCloseGo d x.1 xs = x :: xs
    rw [removeCloseGo_eq_of_chain d xs x h]

theorem chain_gap_sublist {l₁ l₂ : List Extremum} {d : ℕ}
    (h : List.Sublist l₁ l₂)
    (hc : l₂.Chain' fun a b => (d : ℤ) ≤ (b.1 : ℤ) - (a.1 : ℤ)) :
    l₁.Chain' fun a b => (d : ℤ) ≤ (b.1 : ℤ) - (a.1 : ℤ) := by
  haveI : IsTrans Extremum fun a b : Extremum => (d : ℤ) ≤ (b.1 : ℤ) - (a.1 : ℤ) :=
    ⟨by intro a b c h1 h2; omega⟩
  rw [List.chain'_iff_pairwise] at hc ⊢
  exact List.Pairwise.sublist h hc

theorem qualityKeep_cases (data : List ℚ) (noise_level : ℚ) (b : Bool)
    (e : Extremum) :
    qualityKeep data noise_level b e = some e ∨
    qualityKeep data noise_level b e = none := by
  unfold qualityKeep
  dsimp only
  split
  · exact Or.inr rfl
  · split
    · split
      · exact Or.inl rfl
      · exact Or.inr rfl
    · split
      · exact Or.inl rfl
      · exact Or.inr rfl

theorem filterMap_self_sublist {α : Type} (f : α → Option α)
    (hf : ∀ a, f a = some a ∨ f a = none) (l : List α) :
    List.Sublist (l.filterMap f) l := by
  induction l with
  | nil => simp
  | cons x xs ih =>
    rw [List.filterMap_cons]
    rcases hf x with h | h <;> rw [h]
    · exact List.Sublist.cons₂ x ih
    · exact List.Sublist.cons x ih

theorem mem_filterMap_self {α : Type} {f : α → Option α}
    (hf : ∀ a, f a = some a ∨ f a = none) :
    ∀ {l : List α} {e : α}, e ∈ l.filterMap f → f e = some e := by
  intro l
  induction l with
  | nil =>
    intro e he
    simp at he
  | cons x xs ih =>
    intro e he
    rw [List.filterMap_cons] at he
    rcases hf x with h | h <;> rw [h] at he
    · rcases List.mem_cons.mp he with he' | he'
      · rw [he']
        exact he' ▸ h
      · exact ih he'
    · exact ih he

theorem filterMap_eq_self {α : Type} {f : α → Option α} :
    ∀ {l : List α}, (∀ e ∈ l, f e = some e) → l.filterMap f = l := by
  intro l
  induction l with
  | nil => intro _; rfl
  | cons x xs ih =>
    intro h
    rw [List.filterMap_cons, h x (List.mem_cons_self _ _),
      ih fun e he => h e (List.mem_cons_of_mem _ he)]

theorem filter_by_quality_sublist (l : List Extremum) (data : List ℚ)
    (noise_level : ℚ) (b : Bool) :
    List.Sublist (filter_by_quality l data noise_level b) l :=
  filterMap_self_sublist _ (qualityKeep_cases data noise_level b) l

theorem post_process_chain (minima maxima : List Extremum) (data : List ℚ)
    (noise_level : ℚ) :
    ((post_process_results minima maxima data noise_level).1.Chain'
      fun a b => ((max 2 (data.length / 100) : ℕ) : ℤ) ≤ (b.1 : ℤ) - (a.1 : ℤ)) ∧
    ((post_process_results minima maxima data noise_level).2.Chain'
      fun a b => ((max 2 (data.length / 100) : ℕ) : ℤ) ≤ (b.1 : ℤ) - (a.1 : ℤ)) := by
  unfold post_process_results
  dsimp only
  by_cases hn : 0 < noise_level
  · rw [if_pos hn]
    exact ⟨chain_gap_sublist (filter_by_quality_sublist _ _ _ _)
        (remove_close_chain _ _),
      chain_gap_sublist (filter_by_quality_sublist _ _ _ _)
        (remove_close_chain _ _)⟩
  · rw [if_neg hn]
    exact ⟨remove_close_chain _ _, remove_close_chain _ _⟩

theorem post_process_sorted (minima maxima : List Extremum) (data : List ℚ)
    (noise_level : ℚ) :
    ((post_process_results minima maxima data noise_level).1.Sorted
      fun a b => a.1 < b.1) ∧
    ((post_process_results minima maxima data noise_level).2.Sorted
      fun a b => a.1 < b.1) := by
  unfold post_process_results
  dsimp only
  by_cases hn : 0 < noise_level
  · rw [if_pos hn]
    exact ⟨List.Pairwise.sublist
        ((filter_by_quality_sublist _ _ _ _).trans (remove_close_sublist _ _))
        (dedupSort_sorted _),
      List.Pairwise.sublist
        ((filter_by_quality_sublist _ _ _ _).trans (remove_close_sublist _ _))
        (dedupSort_sorted _)⟩
  · rw [if_neg hn]
    exact ⟨List.Pairwise.sublist (remove_close_sublist _ _) (dedupSort_sorted _),
      List.Pairwise.sublist (remove_close_sublist _ _) (dedupSort_sorted _)⟩

end RefinerLemmas

/-- C4: in each list produced by the refiner (minima and maxima
separately, after dedup, minimum-distance suppression and quality filtering),
every two adjacent entries are at least `max 2 (length / 100)` indices
apart. -/
theorem refined_min_distance (minima maxima : List Extremum) (data : List ℚ)
    (noise_level : ℚ) :
    ((post_process_results minima maxima data noise_level).1.Chain'
      fun a b => ((max 2 (data.length / 100) : ℕ) : ℤ) ≤ (b.1 : ℤ) - (a.1 : ℤ)) ∧
    ((post_process_results minima maxima data noise_level).2.Chain'
      fun a b => ((max 2 (data.length / 100) : ℕ) : ℤ) ≤ (b.1 : ℤ) - (a.1 : ℤ)) :=
  post_process_chain minima maxima data noise_level

/-- C5: the refiner is idempotent — applying `_post_process_results` to
its own output (with the same sequence and the same noise level) returns that
output unchanged. -/
theorem post_process_idempotent (minima maxima : List Extremum)
    (data : List ℚ) (noise_level : ℚ) :
    post_process_results
        (post_process_results minima maxima data noise_level).1
        (post_process_results minima maxima data noise_level).2
        data noise_level
      = post_process_results minima maxima data noise_level := by
  obtain ⟨hs1, hs2⟩ := post_process_sorted minima maxima data noise_level
  obtain ⟨hc1, hc2⟩ := post_process_chain minima maxima data noise_level
  set P := post_process_results minima maxima data noise_level with hPdef
  show post_process_results P.1 P.2 data noise_level = P
  unfold post_process_results
  dsimp only
  rw [dedupSort_eq_of_sorted hs1, dedupSort_eq_of_sorted hs2,
    remove_close_eq_of_chain hc1, remove_close_eq_of_chain hc2]
  by_cases hn : 0 < noise_level
  · rw [if_pos hn]
    have hP1 : P.1 = filter_by_quality
        (remove_close_extrema (dedupSort minima) (max 2 (data.length / 100)))
        data noise_level true := by
      rw [hPdef]
      unfold post_process_results
      dsimp only
      rw [if_pos hn]
    have hP2 : P.2 = filter_by_quality
        (remove_close_extrema (dedupSort maxima) (max 2 (data.length / 100)))
        data noise_level false := by
      rw [hPdef]
      unfold post_process_results
      dsimp only
      rw [if_pos hn]
    have hq1 : filter_by_quality P.1 data noise_level true = P.1 := by
      apply filterMap_eq_self
      intro e he
      rw [hP1] at he
      exact mem_filterMap_self (qualityKeep_cases data noise_level true) he
    have hq2 : filter_by_quality P.2 data noise_level false = P.2 := by
      apply filterMap_eq_self
      intro e he
      rw [hP2] at he
      exact mem_filterMap_self (qualityKeep_cases data noise_level false) he
    rw [hq1, hq2]
  · rw [if_neg hn]

section DisjointLemmas

theorem inter_eq_nil_of {l₁ l₂ : List ℕ}
    (h : ∀ i, i ∈ l₁ → i ∈ l₂ → False) : l₁.inter l₂ = [] := by
  rw [List.eq_nil_iff_forall_not_mem]
  intro a ha
  have ha' : a ∈ l₁ ∩ l₂ := ha
  rw [List.mem_inter_iff] at ha'
  exact h a ha'.1 ha'.2

theorem detect_simple_disjoint (data : List ℚ) (t : ℚ) (i : ℕ)
    (h1 : i ∈ (detect_simple data t).1.map Prod.fst)
    (h2 : i ∈ (detect_simple data t).2.map Prod.fst) : False := by
  unfold detect_simple at h1 h2
  by_cases hlen : data.length < 3
  · rw [if_pos hlen] at h1
    simp at h1
  · rw [if_neg hlen] at h1 h2
    dsimp only at h1 h2
    rcases List.mem_map.mp h1 with ⟨p, hp, hpi⟩
    rcases List.mem_map.mp h2 with ⟨q, hq, hqi⟩
    have hp' := mem_filterMapIf.mp hp
    have hq' := mem_filterMapIf.mp hq
    have heq : q.1 = p.1 := hqi.trans hpi.symm
    exact hp'.2.1.1 (heq ▸ hq'.2.1)

theorem detect_window_disjoint (data : List ℚ) (w : ℕ) (i : ℕ)
    (h1 : i ∈ (detect_window data w).1.map Prod.fst)
    (h2 : i ∈ (detect_window data w).2.map Prod.fst) : False := by
  unfold detect_window at h1 h2
  by_cases hlen : data.length < w + 2
  · rw [if_pos hlen] at h1
    simp at h1
  · rw [if_neg hlen] at h1 h2
    dsimp only at h1 h2
    rcases List.mem_map.mp h1 with ⟨p, hp, hpi⟩
    rcases List.mem_map.mp h2 with ⟨q, hq, hqi⟩
    have hp' := mem_filterMapIf.mp hp
    have hq' := mem_filterMapIf.mp hq
    have heq : q.1 = p.1 := hqi.trans hpi.symm
    exact hp'.2.1.1 (heq ▸ hq'.2.1)

theorem detect_slope_disjoint (data : List ℚ) (t : ℚ) (i : ℕ)
    (h1 : i ∈ (detect_slope data t).1.map Prod.fst)
    (h2 : i ∈ (detect_slope data t).2.map Prod.fst) : False := by
  unfold detect_slope at h1 h2
  by_cases hlen : data.length < 4
  · rw [if_pos hlen] at h1
    simp at h1
  · rw [if_neg hlen] at h1 h2
    dsimp only at h1 h2
    rcases List.mem_map.mp h1 with ⟨p, hp, hpi⟩
    rcases List.mem_map.mp h2 with ⟨q, hq, hqi⟩
    have hp' := mem_filterMapIf.mp hp
    have hq' := mem_filterMapIf.mp hq
    have heq : q.1 = p.1 := hqi.trans hpi.symm
    exact hp'.2.1.1 (heq ▸ hq'.2.1)

theorem mem_tagList {k : Kind} {l : List Extremum} {e : Tagged} :
    e ∈ tagList k l ↔ e.kind = k ∧ (e.idx, e.val) ∈ l := by
  unfold tagList
  rw [List.mem_map]
  constructor
  · rintro ⟨p, hp, rfl⟩
    exact ⟨rfl, hp⟩
  · rintro ⟨hk, hmem⟩
    refine ⟨(e.idx, e.val), hmem, ?_⟩
    cases e
    cases hk
    rfl

theorem projectKind_fst_mem {k : Kind} {W : List Tagged} {i : ℕ}
    (h : i ∈ (projectKind k W).map Prod.fst) :
    ∃ e ∈ W, e.kind = k ∧ e.idx = i := by
  unfold projectKind at h
  rw [List.map_map] at h
  rcases List.mem_map.mp h with ⟨e, he, hei⟩
  have he' := List.mem_filter.mp he
  exact ⟨e, he'.1, of_decide_eq_true he'.2, hei⟩

theorem alternatingCands_cross (data : List ℚ) (t : ℚ) {e1 e2 : Tagged}
    (h1 : e1 ∈ alternatingCands data t) (h2 : e2 ∈ alternatingCands data t)
    (hk1 : e1.kind = Kind.kmin) (hk2 : e2.kind = Kind.kmax)
    (hidx : e2.idx = e1.idx) : False := by
  unfold alternatingCands at h1 h2
  dsimp only at h1 h2
  rcases List.mem_append.mp h1 with hA | hB
  · exact Kind.noConfusion (hk1.symm.trans (mem_tagList.mp hA).1)
  · rcases List.mem_append.mp h2 with hA2 | hB2
    · have hB' := mem_filterMapIf.mp (mem_tagList.mp hB).2
      have hA2' := mem_filterMapIf.mp (mem_tagList.mp hA2).2
      exact hB'.2.1.1 (hidx ▸ hA2'.2.1)
    · exact Kind.noConfusion (hk2.symm.trans (mem_tagList.mp hB2).1)

theorem sevenPointCands_cross (data : List ℚ) (thr : ℚ) {e1 e2 : Tagged}
    (h1 : e1 ∈ sevenPointCands data thr) (h2 : e2 ∈ sevenPointCands data thr)
    (hk1 : e1.kind = Kind.kmin) (hk2 : e2.kind = Kind.kmax)
    (hidx : e2.idx = e1.idx) : False := by
  unfold sevenPointCands at h1 h2
  dsimp only at h1 h2
  rcases List.mem_append.mp h1 with hA | hB
  · exact Kind.noConfusion (hk1.symm.trans (mem_tagList.mp hA).1)
  · rcases List.mem_append.mp h2 with hA2 | hB2
    · have hB' := mem_filterMapIf.mp (mem_tagList.mp hB).2
      have hA2' := mem_filterMapIf.mp (mem_tagList.mp hA2).2
      rcases List.mem_range'_1.mp hB'.1 with ⟨h3le, _⟩
      have hmem : e1.idx + 1 ∈ List.range' (e1.idx - 3) 7 :=
        List.mem_range'_1.mpr ⟨by omega, by omega⟩
      have hlt1 : atD data e1.idx < atD data (e1.idx + 1) :=
        hB'.2.1.2 (e1.idx + 1) hmem (by omega)
      have hmax : sevenPointMaxCand data e1.idx := hidx ▸ hA2'.2.1
      have hlt2 : atD data (e1.idx + 1) < atD data e1.idx :=
        hmax (e1.idx + 1) hmem (by omega)
      exact absurd hlt2 (not_lt.mpr (le_of_lt hlt1))
    · exact Kind.noConfusion (hk2.symm.trans (mem_tagList.mp hB2).1)

theorem detect_alternating_disjoint (data : List ℚ) (t : ℚ) (i : ℕ)
    (h1 : i ∈ (detect_alternating data t).1.map Prod.fst)
    (h2 : i ∈ (detect_alternating data t).2.map Prod.fst) : False := by
  unfold detect_alternating at h1 h2
  by_cases hlen : data.length < 5
  · rw [if_pos hlen] at h1
    simp at h1
  · rw [if_neg hlen] at h1 h2
    dsimp only at h1 h2
    obtain ⟨e1, he1, hk1, hi1⟩ := projectKind_fst_mem h1
    obtain ⟨e2, he2, hk2, hi2⟩ := projectKind_fst_mem h2
    exact alternatingCands_cross data t
      ((isort_perm _ _).mem_iff.mp ((walk_sublist _ _ _).subset he1))
      ((isort_perm _ _).mem_iff.mp ((walk_sublist _ _ _).subset he2))
      hk1 hk2 (hi2.trans hi1.symm)

theorem detect_enhanced_disjoint (data : List ℚ) (t : ℚ) (i : ℕ)
    (h1 : i ∈ (detect_enhanced data t).1.map Prod.fst)
    (h2 : i ∈ (detect_enhanced data t).2.map Prod.fst) : False := by
  unfold detect_enhanced at h1 h2
  by_cases hlen : data.length < 7
  · rw [if_pos hlen] at h1
    simp at h1
  · rw [if_neg hlen] at h1 h2
    dsimp only at h1 h2
    obtain ⟨e1, he1, hk1, hi1⟩ := projectKind_fst_mem h1
    obtain ⟨e2, he2, hk2, hi2⟩ := projectKind_fst_mem h2
    exact sevenPointCands_cross data (enhancedMinThreshold data)
      ((isort_perm _ _).mem_iff.mp ((walk_sublist _ _ _).subset he1))
      ((isort_perm _ _).mem_iff.mp ((walk_sublist _ _ _).subset he2))
      hk1 hk2 (hi2.trans hi1.symm)

theorem detect_strict_disjoint (data : List ℚ) (t : ℚ) (i : ℕ)
    (h1 : i ∈ (detect_strict data t).1.map Prod.fst)
    (h2 : i ∈ (detect_strict data t).2.map Prod.fst) : False := by
  unfold detect_strict at h1 h2
  by_cases hlen : data.length < 7
  · rw [if_pos hlen] at h1
    simp at h1
  · rw [if_neg hlen] at h1 h2
    dsimp only at h1 h2
    obtain ⟨e1, he1, hk1, hi1⟩ := projectKind_fst_mem h1
    obtain ⟨e2, he2, hk2, hi2⟩ := projectKind_fst_mem h2
    exact sevenPointCands_cross data (2/5)
      ((isort_perm _ _).mem_iff.mp ((walk_sublist _ _ _).subset he1))
      ((isort_perm _ _).mem_iff.mp ((walk_sublist _ _ _).subset he2))
      hk1 hk2 (hi2.trans hi1.symm)

theorem runMethod_disjoint (data : List ℚ) (method : String) (t : ℚ) (w : ℕ)
    (i : ℕ) (h1 : i ∈ (runMethod data method t w).1.map Prod.fst)
    (h2 : i ∈ (runMethod data method t w).2.map Prod.fst) : False := by
  unfold runMethod at h1 h2
  by_cases m1 : method = "simple"
  · rw [if_pos m1] at h1 h2
    exact detect_simple_disjoint data t i h1 h2
  · rw [if_neg m1] at h1 h2
    by_cases m2 : method = "window"
    · rw [if_pos m2] at h1 h2
      exact detect_window_disjoint data w i h1 h2
    · rw [if_neg m2] at h1 h2
      by_cases m3 : method = "slope"
      · rw [if_pos m3] at h1 h2
        exact detect_slope_disjoint data t i h1 h2
      · rw [if_neg m3] at h1 h2
        by_cases m4 : method = "alternating"
        · rw [if_pos m4] at h1 h2
          exact detect_alternating_disjoint data t i h1 h2
        · rw [if_neg m4] at h1 h2
          by_cases m5 : method = "enhanced"
          · rw [if_pos m5] at h1 h2
            exact detect_enhanced_disjoint data t i h1 h2
          · rw [if_neg m5] at h1 h2
            by_cases m6 : method = "strict"
            · rw [if_pos m6] at h1 h2
              exact detect_strict_disjoint data t i h1 h2
            · rw [if_neg m6] at h1 h2
              exact detect_enhanced_disjoint data t i h1 h2

theorem post_process_subset (minima maxima : List Extremum) (data : List ℚ)
    (noise_level : ℚ) :
    (∀ p, p ∈ (post_process_results minima maxima data noise_level).1 →
      p ∈ minima) ∧
    (∀ p, p ∈ (post_process_results minima maxima data noise_level).2 →
      p ∈ maxima) := by
  unfold post_process_results
  dsimp only
  by_cases hn : 0 < noise_level
  · rw [if_pos hn]
    constructor
    · intro p hp
      exact dedupSort_mem ((remove_close_sublist _ _).subset
        ((filter_by_quality_sublist _ _ _ _).subset hp))
    · intro p hp
      exact dedupSort_mem ((remove_close_sublist _ _).subset
        ((filter_by_quality_sublist _ _ _ _).subset hp))
  · rw [if_neg hn]
    constructor
    · intro p hp
      exact dedupSort_mem ((remove_close_sublist _ _).subset hp)
    · intro p hp
      exact dedupSort_mem ((remove_close_sublist _ _).subset hp)

theorem detect_extrema_disjoint (data : List ℚ) (method : String) (t : ℚ)
    (w : ℕ) (noise_level : ℚ) (i : ℕ)
    (h1 : i ∈ (detect_extrema data method t w noise_level).1.map Prod.fst)
    (h2 : i ∈ (detect_extrema data method t w noise_level).2.map Prod.fst) :
    False := by
  unfold detect_extrema at h1 h2
  by_cases hlen : data.length < 3
  · rw [if_pos hlen] at h1
    simp at h1
  · rw [if_neg hlen] at h1 h2
    dsimp only at h1 h2
    rcases List.mem_map.mp h1 with ⟨p, hp, hpi⟩
    rcases List.mem_map.mp h2 with ⟨q, hq, hqi⟩
    have hp' := (post_process_subset _ _ data noise_level).1 p hp
    have hq' := (post_process_subset _ _ data noise_level).2 q hq
    refine runMethod_disjoint data method t w i ?_ ?_
    · rw [← hpi]
      exact List.mem_map_of_mem Prod.fst hp'
    · rw [← hqi]
      exact List.mem_map_of_mem Prod.fst hq'

theorem detect_extrema_auto_disjoint (data : List ℚ) (t : ℚ) (w : ℕ)
    (noise_level std_val : ℚ) (i : ℕ)
    (h1 : i ∈ (detect_extrema_auto data t w noise_level std_val).1.map Prod.fst)
    (h2 : i ∈ (detect_extrema_auto data t w noise_level std_val).2.map Prod.fst) :
    False := by
  unfold detect_extrema_auto at h1 h2
  by_cases hlen : data.length < 3
  · rw [if_pos hlen] at h1
    simp at h1
  · rw [if_neg hlen] at h1 h2
    exact detect_extrema_disjoint data _ t w noise_level i h1 h2

end DisjointLemmas

/-- C10: each of the six strategies classifies no index as both a local
minimum and a local maximum (the intersection of the two index lists is
empty), and consequently the same holds for the full detection pipeline, with
any method string (recognized or not) and with automatic method selection. -/
theorem detection_index_sets_disjoint (data : List ℚ) (threshold : ℚ)
    (window_size : ℕ) (method : String) (noise_level std_val : ℚ) :
    ((detect_simple data threshold).1.map Prod.fst).inter
        ((detect_simple data threshold).2.map Prod.fst) = [] ∧
    ((detect_window data window_size).1.map Prod.fst).inter
        ((detect_window data window_size).2.map Prod.fst) = [] ∧
    ((detect_slope data threshold).1.map Prod.fst).inter
        ((detect_slope data threshold).2.map Prod.fst) = [] ∧
    ((detect_alternating data threshold).1.map Prod.fst).inter
        ((detect_alternating data threshold).2.map Prod.fst) = [] ∧
    ((detect_enhanced data threshold).1.map Prod.fst).inter
        ((detect_enhanced data threshold).2.map Prod.fst) = [] ∧
    ((detect_strict data threshold).1.map Prod.fst).inter
        ((detect_strict data threshold).2.map Prod.fst) = [] ∧
    ((detect_extrema data method threshold window_size noise_level).1.map
        Prod.fst).inter
      ((detect_extrema data method threshold window_size noise_level).2.map
        Prod.fst) = [] ∧
    ((detect_extrema_auto data threshold window_size noise_level std_val).1.map
        Prod.fst).inter
      ((detect_extrema_auto data threshold window_size noise_level
        std_val).2.map Prod.fst) = [] :=
  ⟨inter_eq_nil_of (detect_simple_disjoint data threshold),
   inter_eq_nil_of (detect_window_disjoint data window_size),
   inter_eq_nil_of (detect_slope_disjoint data threshold),
   inter_eq_nil_of (detect_alternating_disjoint data threshold),
   inter_eq_nil_of (detect_enhanced_disjoint data threshold),
   inter_eq_nil_of (detect_strict_disjoint data threshold),
   inter_eq_nil_of (detect_extrema_disjoint data method threshold window_size
     noise_level),
   inter_eq_nil_of (detect_extrema_auto_disjoint data threshold window_size
     noise_level std_val)⟩

end UED
